import Mathlib

/-!
Verification of the finl_charsub streaming character-substitution engine and
its escape decoder, shallowly embedded from `src/charsub.rs` and
`src/unescape.rs`. Strings are modelled as `List Char` (all slicing in the
source happens at `char_indices` boundaries, so byte indices correspond to
character indices). Operations that can panic in the source (the `unwrap`
calls) are modelled as `Option`-returning functions that yield `none`
exactly where the source would panic.
-/

namespace FinlCharsub

/-- The rule trie from `SubstitutionTrie` in charsub.rs: an optional output at
each node plus character-keyed children. The source uses a `HashMap`; lookups
are by key only, so an association list with replace-or-append insertion is an
exact model. -/
inductive SubstitutionTrie : Type where
  | mk : Option (List Char) → List (Char × SubstitutionTrie) → SubstitutionTrie
deriving Repr

def SubstitutionTrie.output : SubstitutionTrie → Option (List Char)
  | .mk o _ => o

def SubstitutionTrie.children : SubstitutionTrie → List (Char × SubstitutionTrie)
  | .mk _ cs => cs

/-- `HashMap::get` on the children map. -/
def lookupChild : List (Char × SubstitutionTrie) → Char → Option SubstitutionTrie
  | [], _ => none
  | (c', t) :: rest, c => if c' = c then some t else lookupChild rest c

/-- `HashMap::entry(ch).or_insert`/assignment on the children map: replace the
binding if the key exists, otherwise append it. -/
def updateChild : List (Char × SubstitutionTrie) → Char → SubstitutionTrie →
    List (Char × SubstitutionTrie)
  | [], c, t => [(c, t)]
  | (c', t') :: rest, c, t =>
    if c' = c then (c, t) :: rest else (c', t') :: updateChild rest c t

/-- `SubstitutionTrie::new`. -/
def SubstitutionTrie.new : SubstitutionTrie := .mk none []

/-- `SubstitutionTrie::add`: walk/create one child per character of the input,
then set the terminal node's output (overwriting any previous output). -/
def SubstitutionTrie.add : SubstitutionTrie → List Char → List Char → SubstitutionTrie
  | t, [], out => .mk (some out) t.children
  | t, c :: cs, out =>
    let child := (lookupChild t.children c).getD SubstitutionTrie.new
    .mk t.output (updateChild t.children c (child.add cs out))

/-- The scan loop of `CharSubMachine::_flush_substitution`: descend the trie
along the input (the `unwrap` on the child lookup is modelled by `none`),
tracking `end_of_mapping` and `in_substitution` exactly as the source does.
`loc` is the index of the current character in the original input. -/
def flushScan : SubstitutionTrie → List Char → Nat → Nat → Bool →
    Option (SubstitutionTrie × Nat × Bool)
  | node, [], _, eom, insub => some (node, eom, insub)
  | node, ch :: rest, loc, eom, insub =>
    match lookupChild node.children ch with
    | none => none
    | some child =>
      if child.output.isSome then flushScan child rest (loc + 1) eom true
      else if insub then flushScan child rest (loc + 1) loc false
      else flushScan child rest (loc + 1) eom false

/-- `CharSubMachine::_flush_substitution`, with fuel for the recursion on the
strictly shorter `input[..end_of_mapping]` prefix (the fuel supplied by
`flushSub` below is proved sufficient for every trie path). -/
def flushSubFuel (t : SubstitutionTrie) : Nat → List Char →
    Option (List Char × Option (List Char))
  | 0, _ => none
  | fuel + 1, input =>
    match flushScan t input 0 0 false with
    | none => none
    | some (node, eom0, insub) =>
      let eom := if insub then input.length else eom0
      match node.output with
      | some out => some (out, none)
      | none =>
        if eom = 0 then some (input, none)
        else
          match flushSubFuel t fuel (input.take eom) with
          | none => none
          | some (s, _) => some (s, some (input.drop eom))

def flushSub (t : SubstitutionTrie) (input : List Char) :
    Option (List Char × Option (List Char)) :=
  flushSubFuel t (input.length + 1) input

/-- The dead-end block at the top of the `process` loop body (charsub.rs lines
100-124): when inside a candidate and the current character has no child, emit
either the current node's output or the backtracked resolution of the buffered
candidate span, then reset to the root. The `built_value.unwrap` calls are
modelled by requiring `some`. -/
def deadEndStep (t : SubstitutionTrie) (input : List Char) (loc : Nat) (ch : Char)
    (node : SubstitutionTrie) (built : Option (List Char)) (insub : Bool)
    (start : Nat) : Option (SubstitutionTrie × Option (List Char) × Bool) :=
  if insub && (lookupChild node.children ch).isNone then
    match built with
    | none => none
    | some b =>
      match node.output with
      | none =>
        match flushSub t ((input.drop start).take (loc - start)) with
        | none => none
        | some (sub, rem) => some (t, some (b ++ sub ++ rem.getD []), false)
      | some sub => some (t, some (b ++ sub), false)
  else some (node, built, insub)

/-- The `for (loc, ch) in input.char_indices()` loop of
`CharSubMachine::process`. `input` is the full effective input (for the
slicing the source performs on it); the first list argument is the remaining
suffix, `loc` the index of its first character. Returns the final
`(curr_node, built_value, in_substitution, substitution_start)` state. -/
def processLoop (t : SubstitutionTrie) (input : List Char) :
    List Char → Nat → SubstitutionTrie → Option (List Char) → Bool → Nat →
    Option (SubstitutionTrie × Option (List Char) × Bool × Nat)
  | [], _, node, built, insub, start => some (node, built, insub, start)
  | ch :: rest, loc, node, built, insub, start =>
    match deadEndStep t input loc ch node built insub start with
    | none => none
    | some (node, built, insub) =>
      match lookupChild node.children ch with
      | some child =>
        processLoop t input rest (loc + 1) child
          (some (built.getD (input.take loc))) true
          (if insub then start else loc)
      | none =>
        processLoop t input rest (loc + 1) node
          (built.map (fun b => b ++ [ch])) insub start

/-- The machine state from `CharSubMachine`. -/
structure CharSubMachine where
  trie : SubstitutionTrie
  unprocessed : Option (List Char)
deriving Repr

def CharSubMachine.new : CharSubMachine := ⟨SubstitutionTrie.new, none⟩

/-- `CharSubMachine::add_substitution`. -/
def CharSubMachine.add_substitution (m : CharSubMachine) (input output : List Char) :
    CharSubMachine :=
  ⟨m.trie.add input output, m.unprocessed⟩

/-- `CharSubMachine::process`: prepend any unprocessed leftover, run the scan
loop, then handle a candidate still live at end of input (emit the output of a
childless node — an `unwrap` in the source — or buffer the candidate span). -/
def CharSubMachine.process (m : CharSubMachine) (input0 : List Char) :
    Option (List Char × CharSubMachine) :=
  let input := match m.unprocessed with
    | none => input0
    | some u => u ++ input0
  let built0 : Option (List Char) := match m.unprocessed with
    | none => none
    | some _ => some []
  match processLoop m.trie input input 0 m.trie built0 false 0 with
  | none => none
  | some (node, built, insub, start) =>
    if insub then
      if node.children.isEmpty then
        match built, node.output with
        | some b, some out => some (b ++ out, ⟨m.trie, none⟩)
        | _, _ => none
      else
        some (built.getD input0, ⟨m.trie, some (input.drop start)⟩)
    else
      some (built.getD input0, ⟨m.trie, none⟩)

/-- `CharSubMachine::flush`: take the unprocessed buffer, resolve it through
`_flush_substitution`, and concatenate the two returned parts. -/
def CharSubMachine.flush (m : CharSubMachine) : Option (List Char × CharSubMachine) :=
  match m.unprocessed with
  | none => some ([], ⟨m.trie, none⟩)
  | some u =>
    match flushSub m.trie u with
    | none => none
    | some (p1, p2) => some (p1 ++ p2.getD [], ⟨m.trie, none⟩)

/-- One call of the public API, for stating properties of arbitrary call
sequences. -/
inductive Call : Type where
  | add : List Char → List Char → Call
  | proc : List Char → Call
  | flush : Call

/-- Run a sequence of API calls from a machine state, collecting the strings
returned by `process` and `flush`; `none` if any call panics. -/
def run : CharSubMachine → List Call → Option (List (List Char) × CharSubMachine)
  | m, [] => some ([], m)
  | m, Call.add i o :: rest => run (m.add_substitution i o) rest
  | m, Call.proc s :: rest =>
    match m.process s with
    | none => none
    | some (out, m') =>
      match run m' rest with
      | none => none
      | some (outs, mf) => some (out :: outs, mf)
  | m, Call.flush :: rest =>
    match m.flush with
    | none => none
    | some (out, m') =>
      match run m' rest with
      | none => none
      | some (outs, mf) => some (out :: outs, mf)

/-! ## The escape decoder from unescape.rs -/

/-- The scanner states of `unescape` (the `State` enum in unescape.rs). -/
inductive UState : Type where
  | Normal | Escape | StartUnicode | InUnicode
deriving Repr, DecidableEq

/-- The five variants of `UnescapeError`. Each carries the `input[..index]`
slice and the character at `index` that was being examined when the error was
raised (matching the payloads built at each `bail!` site). -/
inductive UnescapeError : Type where
  | BadEscape : List Char → Char → UnescapeError
  | MissingOpenBrace : List Char → Char → UnescapeError
  | NonHexDigit : List Char → Char → UnescapeError
  | HexValueTooLarge : List Char → Char → UnescapeError
  | InvalidUnicodeValue : List Char → Char → UnescapeError
deriving Repr, DecidableEq

/-- `char::to_digit(16)`. -/
def hexDigit? (c : Char) : Option Nat :=
  if '0' ≤ c ∧ c ≤ '9' then some (c.toNat - '0'.toNat)
  else if 'a' ≤ c ∧ c ≤ 'f' then some (c.toNat - 'a'.toNat + 10)
  else if 'A' ≤ c ∧ c ≤ 'F' then some (c.toNat - 'A'.toNat + 10)
  else none

/-- `char::from_u32`: valid scalar values only (rejects surrogates and values
above 0x10FFFF). -/
def u32Char (n : Nat) : Option Char :=
  if n < 0xd800 ∨ (0xdfff < n ∧ n < 0x110000) then some (Char.ofNat n)
  else none

/-- The `for c in input.char_indices()` loop of `unescape`, carried out on the
remaining suffix with `idx` the index of its first character; the running
state is `(state, escape_sequence_seen, modified_string, unicode_value)` and
the result is that state after the loop (or the first error raised).
The `u32` accumulator never overflows: the `0x10FFFF` guard keeps it below
`2 ^ 25` at all times, so plain `Nat` arithmetic coincides with `u32`. -/
def coreRun (input : List Char) :
    List Char → Nat → UState → Bool → List Char → Nat →
    Except UnescapeError (UState × Bool × List Char × Nat)
  | [], _, st, seen, acc, uv => .ok (st, seen, acc, uv)
  | c :: cs, idx, st, seen, acc, uv =>
    match st with
    | .Normal =>
      if c = '\\' then
        coreRun input cs (idx + 1) .Escape true
          (if seen = false ∧ 0 < idx then acc ++ input.take idx else acc) uv
      else
        coreRun input cs (idx + 1) .Normal seen (if seen then acc ++ [c] else acc) uv
    | .Escape =>
      if c = 't' then coreRun input cs (idx + 1) .Escape seen (acc ++ ['\t']) uv
      else if c = '\\' then coreRun input cs (idx + 1) .Escape seen (acc ++ ['\\']) uv
      else if c = '"' then coreRun input cs (idx + 1) .Escape seen (acc ++ ['"']) uv
      else if c = '\'' then coreRun input cs (idx + 1) .Escape seen (acc ++ ['\'']) uv
      else if c = 'n' then coreRun input cs (idx + 1) .Escape seen (acc ++ ['\n']) uv
      else if c = 'r' then coreRun input cs (idx + 1) .Escape seen (acc ++ ['\r']) uv
      else if c = 'u' then coreRun input cs (idx + 1) .StartUnicode seen acc uv
      else .error (.BadEscape (input.take idx) c)
    | .StartUnicode =>
      if c = '{' then coreRun input cs (idx + 1) .InUnicode seen acc 0
      else .error (.MissingOpenBrace (input.take idx) c)
    | .InUnicode =>
      if c = '}' then
        match u32Char uv with
        | none => .error (.InvalidUnicodeValue (input.take idx) '}')
        | some ch => coreRun input cs (idx + 1) .Normal seen (acc ++ [ch]) uv
      else
        match hexDigit? c with
        | none => .error (.NonHexDigit (input.take idx) c)
        | some d =>
          let uv' := uv * 16 + d
          if uv' > 0x10FFFF then .error (.HexValueTooLarge (input.take idx) c)
          else coreRun input cs (idx + 1) .InUnicode seen acc uv'

/-- `unescape`: run the scanner over the whole input; if no escape sequence
was ever seen the original input is returned, otherwise the built string. -/
def unescapeL (input : List Char) : Except UnescapeError (List Char) :=
  match coreRun input input 0 .Normal false [] 0 with
  | .error e => .error e
  | .ok (_, seen, acc, _) => .ok (if seen then acc else input)

/-- Value of a hex-digit string, accumulated left to right from `v` the way
the `InUnicode` state does; `none` if some character is not a hex digit. -/
def hexVal : Nat → List Char → Option Nat
  | v, [] => some v
  | v, c :: cs =>
    match hexDigit? c with
    | none => none
    | some d => hexVal (v * 16 + d) cs

/-- The shapes of a trailing incomplete escape sequence: a lone backslash, a
backslash followed by `u`, or an unterminated unicode escape `\u{` followed
by hex digits whose value does not exceed 0x10FFFF (the empty digit string
covers a bare trailing `\u{`). -/
def IncompleteEscape (s : List Char) : Prop :=
  s = ['\\'] ∨ s = ['\\', 'u'] ∨
  ∃ ds w, s = '\\' :: 'u' :: '{' :: ds ∧ hexVal 0 ds = some w ∧ w ≤ 0x10FFFF

/-! ## Specification-side definitions used by the invariants -/

/-- Character-by-character descent in the trie (§4.1 lookup behaviour): the
node reached by consuming the given characters from this node, if the path
exists. -/
def follow : SubstitutionTrie → List Char → Option SubstitutionTrie
  | t, [] => some t
  | t, c :: cs =>
    match lookupChild t.children c with
    | none => none
    | some child => follow child cs

/-- Well-formedness of a (non-root) trie node: a childless node carries
output, and all children are again well formed. -/
inductive GoodTrie : SubstitutionTrie → Prop where
  | mk : ∀ (o : Option (List Char)) (cs : List (Char × SubstitutionTrie)),
      (cs = [] → o.isSome) →
      (∀ c t, (c, t) ∈ cs → GoodTrie t) →
      GoodTrie (.mk o cs)

/-- Well-formedness as a root: all strict descendants are well formed (the
root itself may be childless and outputless). -/
def GoodChildren (t : SubstitutionTrie) : Prop :=
  ∀ c u, (c, u) ∈ t.children → GoodTrie u

/-- Invariant of reachable machine states: the trie is well formed, and any
buffered leftover is a nonempty real path in the trie (§3). -/
def Inv (m : CharSubMachine) : Prop :=
  GoodChildren m.trie ∧
  ∀ u, m.unprocessed = some u → u ≠ [] ∧ (follow m.trie u).isSome

/-- The trie obtained by registering a list of rules in order. -/
def buildTrie (rules : List (List Char × List Char)) : SubstitutionTrie :=
  rules.foldl (fun t r => t.add r.1 r.2) SubstitutionTrie.new

/-! ## Basic lemmas about the trie operations -/

theorem lookupChild_mem {l : List (Char × SubstitutionTrie)} {c : Char}
    {u : SubstitutionTrie} (h : lookupChild l c = some u) : (c, u) ∈ l := by
  induction l with
  | nil => simp [lookupChild] at h
  | cons p rest ih =>
    obtain ⟨d, w⟩ := p
    simp only [lookupChild] at h
    split at h
    · rename_i hd
      cases h
      subst hd
      exact List.mem_cons_self _ _
    · exact List.mem_cons_of_mem _ (ih h)

theorem updateChild_ne_nil (l : List (Char × SubstitutionTrie)) (c : Char)
    (t : SubstitutionTrie) : updateChild l c t ≠ [] := by
  cases l with
  | nil => simp [updateChild]
  | cons p rest =>
    obtain ⟨d, w⟩ := p
    simp only [updateChild]
    split <;> simp

theorem mem_updateChild {l : List (Char × SubstitutionTrie)} {c c' : Char}
    {t u : SubstitutionTrie} (h : (c', u) ∈ updateChild l c t) :
    (c' = c ∧ u = t) ∨ (c', u) ∈ l := by
  induction l with
  | nil =>
    simp only [updateChild, List.mem_singleton, Prod.mk.injEq] at h
    exact Or.inl h
  | cons p rest ih =>
    obtain ⟨d, w⟩ := p
    simp only [updateChild] at h
    split at h
    · rcases List.mem_cons.mp h with h1 | h1
      · rw [Prod.mk.injEq] at h1
        exact Or.inl h1
      · exact Or.inr (List.mem_cons_of_mem _ h1)
    · rcases List.mem_cons.mp h with h1 | h1
      · exact Or.inr (h1 ▸ List.mem_cons_self _ _)
      · rcases ih h1 with h2 | h2
        · exact Or.inl h2
        · exact Or.inr (List.mem_cons_of_mem _ h2)

theorem lookupChild_updateChild_self (l : List (Char × SubstitutionTrie))
    (c : Char) (t : SubstitutionTrie) :
    lookupChild (updateChild l c t) c = some t := by
  induction l with
  | nil => simp [updateChild, lookupChild]
  | cons p rest ih =>
    obtain ⟨d, w⟩ := p
    simp only [updateChild]
    split
    · simp [lookupChild]
    · rename_i hd
      simp only [lookupChild, if_neg hd]
      exact ih

theorem lookupChild_updateChild_ne (l : List (Char × SubstitutionTrie))
    {c d : Char} (t : SubstitutionTrie) (h : d ≠ c) :
    lookupChild (updateChild l d t) c = lookupChild l c := by
  induction l with
  | nil => simp [updateChild, lookupChild, h]
  | cons p rest ih =>
    obtain ⟨e, w⟩ := p
    simp only [updateChild]
    split
    · rename_i he
      subst he
      simp [lookupChild, h]
    · simp only [lookupChild]
      split
      · rfl
      · exact ih

theorem GoodTrie.childrenGood {t : SubstitutionTrie} (h : GoodTrie t) :
    GoodChildren t := by
  cases h with
  | mk o cs h1 h2 => exact h2

theorem GoodTrie.output_of_childless {t : SubstitutionTrie} (h : GoodTrie t)
    (hc : t.children = []) : t.output.isSome := by
  cases h with
  | mk o cs h1 h2 => exact h1 hc

theorem goodChildren_new : GoodChildren SubstitutionTrie.new := by
  intro c u h
  simp [SubstitutionTrie.new, SubstitutionTrie.children] at h

/-- `add` produces a well-formed node from any node with well-formed children:
it either writes an output into the node itself or gives it a child. -/
theorem goodTrie_add (out : List Char) :
    ∀ (cs : List Char) (t : SubstitutionTrie), GoodChildren t →
      GoodTrie (t.add cs out) := by
  intro cs
  induction cs with
  | nil =>
    intro t ht
    refine GoodTrie.mk _ _ (fun _ => rfl) ?_
    intro c u hm
    exact ht c u hm
  | cons c cs ih =>
    intro t ht
    refine GoodTrie.mk _ _ (fun hnil => absurd hnil (updateChild_ne_nil _ _ _)) ?_
    intro c' u hm
    rcases mem_updateChild hm with ⟨-, rfl⟩ | hm'
    · refine ih _ ?_
      rcases hlk : lookupChild t.children c with - | w
      · simp only [hlk, Option.getD_none]
        exact goodChildren_new
      · simp only [hlk, Option.getD_some]
        exact (ht _ _ (lookupChild_mem hlk)).childrenGood
    · exact ht _ _ hm'

theorem goodChildren_add {t : SubstitutionTrie} (h : GoodChildren t)
    (cs out : List Char) : GoodChildren (t.add cs out) :=
  (goodTrie_add out cs t h).childrenGood

/-! ## Lemmas about `follow` -/

theorem follow_append (t : SubstitutionTrie) (a b : List Char) :
    follow t (a ++ b) = (follow t a).bind (fun n => follow n b) := by
  induction a generalizing t with
  | nil => simp [follow]
  | cons c a ih =>
    simp only [List.cons_append, follow]
    cases lookupChild t.children c with
    | none => simp
    | some child => simp [ih]

theorem follow_take_isSome {t : SubstitutionTrie} {p : List Char}
    (h : (follow t p).isSome) (n : Nat) : (follow t (p.take n)).isSome := by
  have := follow_append t (p.take n) (p.drop n)
  rw [List.take_append_drop] at this
  rw [this] at h
  cases hf : follow t (p.take n) with
  | none => rw [hf] at h; simp at h
  | some m => simp

theorem follow_goodTrie {n n' : SubstitutionTrie} {p : List Char}
    (hg : GoodTrie n) (h : follow n p = some n') : GoodTrie n' := by
  induction p generalizing n with
  | nil => cases h; exact hg
  | cons c p ih =>
    simp only [follow] at h
    cases hlk : lookupChild n.children c with
    | none => rw [hlk] at h; cases h
    | some m =>
      rw [hlk] at h
      exact ih (hg.childrenGood _ _ (lookupChild_mem hlk)) h

/-- Any node reached by a nonempty path in a trie with well-formed children
is itself well formed. -/
theorem follow_good {t n : SubstitutionTrie} {c : Char} {p : List Char}
    (hg : GoodChildren t) (h : follow t (c :: p) = some n) : GoodTrie n := by
  simp only [follow] at h
  cases hlk : lookupChild t.children c with
  | none => rw [hlk] at h; cases h
  | some m =>
    rw [hlk] at h
    exact follow_goodTrie (hg _ _ (lookupChild_mem hlk)) h

/-- `add` only grows the trie: every existing path is still a path. -/
theorem follow_add_isSome {u : List Char} :
    ∀ (t : SubstitutionTrie) (cs out : List Char),
      (follow t u).isSome → (follow (t.add cs out) u).isSome := by
  induction u with
  | nil => intro t cs out _; simp [follow]
  | cons c u ih =>
    intro t cs out h
    simp only [follow] at h
    cases hlk : lookupChild t.children c with
    | none => rw [hlk] at h; simp at h
    | some n =>
      rw [hlk] at h
      cases cs with
      | nil =>
        obtain ⟨o, ch⟩ := t
        simp only [SubstitutionTrie.add, follow, SubstitutionTrie.children] at *
        rw [hlk]
        exact h
      | cons d ds =>
        obtain ⟨o, ch⟩ := t
        simp only [SubstitutionTrie.children] at hlk
        simp only [SubstitutionTrie.add, follow, SubstitutionTrie.children]
        by_cases hcd : d = c
        · subst hcd
          rw [lookupChild_updateChild_self]
          simp only [hlk, Option.getD_some]
          exact ih n ds out h
        · rw [lookupChild_updateChild_ne _ _ hcd, hlk]
          exact h

/-! ## Success of `_flush_substitution` on trie paths -/

/-- The scan loop of `_flush_substitution` succeeds on any path of the trie,
ends at the node the path leads to, reports `in_substitution` only when that
node carries output, and returns an `end_of_mapping` that is either its
initial value or the index of one of the scanned characters. -/
theorem flushScan_some {s : List Char} :
    ∀ (node nEnd : SubstitutionTrie) (loc eom : Nat) (insub : Bool),
      follow node s = some nEnd →
      (insub = true → node.output.isSome) →
      ∃ e i, flushScan node s loc eom insub = some (nEnd, e, i) ∧
        (i = true → nEnd.output.isSome) ∧
        (e = eom ∨ e < loc + s.length) := by
  induction s with
  | nil =>
    intro node nEnd loc eom insub hfol hpre
    cases hfol
    exact ⟨eom, insub, rfl, hpre, Or.inl rfl⟩
  | cons c s ih =>
    intro node nEnd loc eom insub hfol hpre
    simp only [follow] at hfol
    cases hlk : lookupChild node.children c with
    | none => rw [hlk] at hfol; cases hfol
    | some child =>
      rw [hlk] at hfol
      simp only [flushScan, hlk]
      by_cases hco : child.output.isSome
      · rw [if_pos hco]
        obtain ⟨e, i, hsc, hi, hb⟩ := ih child nEnd (loc + 1) eom true hfol (fun _ => hco)
        refine ⟨e, i, hsc, hi, ?_⟩
        rcases hb with hb | hb
        · exact Or.inl hb
        · exact Or.inr (by simpa [Nat.add_comm, Nat.add_assoc, Nat.add_left_comm] using hb)
      · rw [if_neg hco]
        cases insub with
        | true =>
          simp only [if_pos rfl]
          obtain ⟨e, i, hsc, hi, hb⟩ := ih child nEnd (loc + 1) loc false hfol (by simp)
          refine ⟨e, i, hsc, hi, Or.inr ?_⟩
          simp only [List.length_cons]
          omega
        | false =>
          simp only [Bool.false_eq_true, if_false]
          obtain ⟨e, i, hsc, hi, hb⟩ := ih child nEnd (loc + 1) eom false hfol (by simp)
          refine ⟨e, i, hsc, hi, ?_⟩
          rcases hb with hb | hb
          · exact Or.inl hb
          · refine Or.inr ?_
            simp only [List.length_cons]
            omega

theorem flushSubFuel_isSome {t : SubstitutionTrie} :
    ∀ (fuel : Nat) (s : List Char), s.length < fuel →
      (follow t s).isSome → (flushSubFuel t fuel s).isSome := by
  intro fuel
  induction fuel with
  | zero => intro s hlen _; omega
  | succ fuel ih =>
    intro s hlen hp
    obtain ⟨nEnd, hfol⟩ := Option.isSome_iff_exists.mp hp
    obtain ⟨e, i, hscan, hout, hbound⟩ :=
      flushScan_some t nEnd 0 0 false hfol (by simp)
    simp only [flushSubFuel, hscan]
    cases ho : nEnd.output with
    | some out => simp
    | none =>
      cases i with
      | true => exact absurd (hout rfl) (by simp [ho])
      | false =>
        simp only [Bool.false_eq_true, if_false]
        by_cases he : e = 0
        · simp [he]
        · rw [if_neg he]
          have hlt : e < s.length := by
            rcases hbound with hb | hb
            · exact absurd hb he
            · simpa using hb
          have htk : (s.take e).length < fuel := by
            rw [List.length_take]
            omega
          have hrec := ih (s.take e) htk (follow_take_isSome hp e)
          cases hfu : flushSubFuel t fuel (s.take e) with
          | none => rw [hfu] at hrec; simp at hrec
          | some r =>
            obtain ⟨s', r'⟩ := r
            simp

theorem flushSub_isSome {t : SubstitutionTrie} {s : List Char}
    (hp : (follow t s).isSome) : (flushSub t s).isSome :=
  flushSubFuel_isSome (s.length + 1) s (Nat.lt_succ_self _) hp

/-! ## The `process` scan loop invariant -/

theorem follow_singleton {t child : SubstitutionTrie} {ch : Char}
    (hlk : lookupChild t.children ch = some child) : follow t [ch] = some child := by
  simp [follow, hlk]

theorem follow_snoc {t node child : SubstitutionTrie} {p : List Char} {ch : Char}
    (hfol : follow t p = some node)
    (hlk : lookupChild node.children ch = some child) :
    follow t (p ++ [ch]) = some child := by
  rw [follow_append, hfol]
  exact follow_singleton hlk

theorem slice_snoc {input : List Char} {start loc : Nat} {ch : Char}
    (hs : start ≤ loc) (hch : input[loc]? = some ch) :
    (input.drop start).take (loc + 1 - start)
      = (input.drop start).take (loc - start) ++ [ch] := by
  have h1 : loc + 1 - start = (loc - start) + 1 := by omega
  rw [h1, List.take_succ]
  congr 1
  have h2 : (input.drop start)[loc - start]? = input[start + (loc - start)]? :=
    List.getElem?_drop _ _ _
  rw [show start + (loc - start) = loc from by omega] at h2
  rw [h2, hch]
  rfl

/-- Invariant of the `process` scan loop: from a consistent state
(`in_substitution` implies a present `built_value` and a candidate span that
is a real trie path ending at `curr_node`; otherwise the cursor is at the
root) the loop never hits a failing `unwrap`, and the same consistency holds
of the final state, with the candidate span now running to the end of the
input. -/
theorem processLoop_ok {t : SubstitutionTrie} (input : List Char) :
    ∀ (rest : List Char) (loc : Nat) (node : SubstitutionTrie)
      (built : Option (List Char)) (insub : Bool) (start : Nat),
      rest = input.drop loc → loc ≤ input.length →
      (insub = true → (∃ b, built = some b) ∧ start < loc ∧
        follow t ((input.drop start).take (loc - start)) = some node) →
      (insub = false → node = t) →
      ∃ node' built' insub' start',
        processLoop t input rest loc node built insub start
          = some (node', built', insub', start') ∧
        (insub' = true → (∃ b, built' = some b) ∧ start' < input.length ∧
          follow t (input.drop start') = some node') ∧
        (insub' = false → node' = t) := by
  intro rest
  induction rest with
  | nil =>
    intro loc node built insub start hdrop hloc hin hroot
    refine ⟨node, built, insub, start, rfl, ?_, hroot⟩
    intro hi
    obtain ⟨hb, hsl, hfol⟩ := hin hi
    have hlen : input.length ≤ loc := List.drop_eq_nil_iff.mp hdrop.symm
    have hleq : loc = input.length := Nat.le_antisymm hloc hlen
    rw [hleq] at hsl hfol
    have htk : (input.drop start).take (input.length - start) = input.drop start := by
      apply List.take_of_length_le
      rw [List.length_drop]
    rw [htk] at hfol
    exact ⟨hb, hsl, hfol⟩
  | cons ch rest' ih =>
    intro loc node built insub start hdrop hloc hin hroot
    have hne : input.drop loc ≠ [] := by rw [← hdrop]; simp
    have hlt : loc < input.length := by
      by_contra hge
      exact hne (List.drop_eq_nil_of_le (by omega))
    have hdrop' : rest' = input.drop (loc + 1) := by
      have h1 : input.drop (loc + 1) = (input.drop loc).drop 1 := by
        rw [List.drop_drop, Nat.add_comm]
      rw [h1, ← hdrop]
      simp
    have hch : input[loc]? = some ch := by
      have h0 : (input.drop loc)[0]? = some ch := by rw [← hdrop]; simp
      rw [List.getElem?_drop] at h0
      simpa using h0
    obtain ⟨node1, built1, insub1, hstep, hin1, hroot1⟩ :
        ∃ node1 built1 insub1,
          deadEndStep t input loc ch node built insub start
            = some (node1, built1, insub1) ∧
          (insub1 = true → ((∃ b, built1 = some b) ∧ start < loc ∧
            follow t ((input.drop start).take (loc - start)) = some node1) ∧
            lookupChild node1.children ch ≠ none) ∧
          (insub1 = false → node1 = t) := by
      cases insub with
      | false =>
        refine ⟨node, built, false, ?_, by simp, fun _ => hroot rfl⟩
        simp [deadEndStep]
      | true =>
        obtain ⟨hb, hsl, hfol⟩ := hin rfl
        cases hlk : lookupChild node.children ch with
        | some child =>
          refine ⟨node, built, true, ?_, ?_, by simp⟩
          · simp [deadEndStep, hlk]
          · intro _
            exact ⟨⟨hb, hsl, hfol⟩, by simp [hlk]⟩
        | none =>
          obtain ⟨b, hb⟩ := hb
          cases ho : node.output with
          | none =>
            have hfs : (flushSub t ((input.drop start).take (loc - start))).isSome :=
              flushSub_isSome (by simp [hfol])
            obtain ⟨⟨sub, rem⟩, hfsv⟩ := Option.isSome_iff_exists.mp hfs
            refine ⟨t, some (b ++ sub ++ rem.getD []), false, ?_, by simp,
              fun _ => rfl⟩
            simp [deadEndStep, hlk, hb, ho, hfsv]
          | some s =>
            refine ⟨t, some (b ++ s), false, ?_, by simp, fun _ => rfl⟩
            simp [deadEndStep, hlk, hb, ho]
    simp only [processLoop, hstep]
    cases hlk1 : lookupChild node1.children ch with
    | some child =>
      cases insub1 with
      | true =>
        obtain ⟨⟨-, hsl1, hfol1⟩, -⟩ := hin1 rfl
        simp only [if_true]
        refine ih (loc + 1) child (some (built1.getD (input.take loc))) true start
          hdrop' (by omega) ?_ (fun h => absurd h (by simp))
        intro _
        refine ⟨⟨_, rfl⟩, by omega, ?_⟩
        rw [slice_snoc (Nat.le_of_lt hsl1) hch]
        exact follow_snoc hfol1 hlk1
      | false =>
        simp only [Bool.false_eq_true, if_false]
        refine ih (loc + 1) child (some (built1.getD (input.take loc))) true loc
          hdrop' (by omega) ?_ (fun h => absurd h (by simp))
        intro _
        refine ⟨⟨_, rfl⟩, by omega, ?_⟩
        have h1 : loc + 1 - loc = 1 := by omega
        rw [h1]
        have h2 : (input.drop loc).take 1 = [ch] := by rw [← hdrop]; simp
        rw [h2]
        rw [hroot1 rfl] at hlk1
        exact follow_singleton hlk1
    | none =>
      have hins1 : insub1 = false := by
        cases insub1 with
        | false => rfl
        | true => exact absurd hlk1 (hin1 rfl).2
      subst hins1
      exact ih (loc + 1) node1 (built1.map (fun b => b ++ [ch])) false start hdrop'
        (by omega) (fun h => absurd h (by simp)) (fun _ => hroot1 rfl)

/-! ## Machine-level safety and invariant preservation -/

theorem inv_new : Inv CharSubMachine.new :=
  ⟨goodChildren_new, by simp [CharSubMachine.new]⟩

theorem add_ok {m : CharSubMachine} (hI : Inv m) (i o : List Char) :
    Inv (m.add_substitution i o) := by
  obtain ⟨t, u⟩ := m
  obtain ⟨hg, hu⟩ := hI
  refine ⟨goodChildren_add hg i o, ?_⟩
  intro w hw
  simp only [CharSubMachine.add_substitution] at hw ⊢
  obtain ⟨hne, hfol⟩ := hu w hw
  exact ⟨hne, follow_add_isSome t i o hfol⟩

/-- From an invariant state, `process` never panics and preserves the
invariant. -/
theorem process_ok {m : CharSubMachine} (hI : Inv m) (s : List Char) :
    ∃ out m', m.process s = some (out, m') ∧ Inv m' := by
  obtain ⟨t, u⟩ := m
  obtain ⟨hg, hu⟩ := hI
  replace hg : GoodChildren t := hg
  cases u with
  | none =>
    obtain ⟨node', built', insub', start', hrun, hfin, hroot'⟩ :=
      processLoop_ok (t := t) s s 0 t none false 0 (List.drop_zero _).symm
        (Nat.zero_le _) (fun h => absurd h (by simp)) (fun _ => rfl)
    simp only [CharSubMachine.process, hrun]
    cases insub' with
    | false =>
      exact ⟨built'.getD s, ⟨t, none⟩, by simp, hg, by simp⟩
    | true =>
      obtain ⟨⟨b, hb⟩, hsl, hfol⟩ := hfin rfl
      cases hchil : node'.children.isEmpty with
      | true =>
        have hcs : node'.children = [] := by simpa using hchil
        have hdne : s.drop start' ≠ [] := by
          refine List.length_pos.mp ?_
          rw [List.length_drop]
          omega
        obtain ⟨c, pp, hcp⟩ := List.exists_cons_of_ne_nil hdne
        rw [hcp] at hfol
        have hgood := follow_good hg hfol
        obtain ⟨outv, ho⟩ := Option.isSome_iff_exists.mp
          (hgood.output_of_childless hcs)
        refine ⟨b ++ outv, ⟨t, none⟩, ?_, hg, by simp⟩
        simp [hb, ho]
      | false =>
        refine ⟨built'.getD s, ⟨t, some (s.drop start')⟩, by simp, hg, ?_⟩
        intro w hw
        cases hw
        constructor
        · refine List.length_pos.mp ?_
          rw [List.length_drop]
          omega
        · simp [hfol]
  | some up =>
    obtain ⟨node', built', insub', start', hrun, hfin, hroot'⟩ :=
      processLoop_ok (t := t) (up ++ s) (up ++ s) 0 t (some []) false 0
        (List.drop_zero _).symm (Nat.zero_le _) (fun h => absurd h (by simp))
        (fun _ => rfl)
    simp only [CharSubMachine.process, hrun]
    cases insub' with
    | false =>
      exact ⟨built'.getD s, ⟨t, none⟩, by simp, hg, by simp⟩
    | true =>
      obtain ⟨⟨b, hb⟩, hsl, hfol⟩ := hfin rfl
      cases hchil : node'.children.isEmpty with
      | true =>
        have hcs : node'.children = [] := by simpa using hchil
        have hdne : (up ++ s).drop start' ≠ [] := by
          refine List.length_pos.mp ?_
          rw [List.length_drop]
          omega
        obtain ⟨c, pp, hcp⟩ := List.exists_cons_of_ne_nil hdne
        rw [hcp] at hfol
        have hgood := follow_good hg hfol
        obtain ⟨outv, ho⟩ := Option.isSome_iff_exists.mp
          (hgood.output_of_childless hcs)
        refine ⟨b ++ outv, ⟨t, none⟩, ?_, hg, by simp⟩
        simp [hb, ho]
      | false =>
        refine ⟨built'.getD s, ⟨t, some ((up ++ s).drop start')⟩, by simp, hg, ?_⟩
        intro w hw
        cases hw
        constructor
        · refine List.length_pos.mp ?_
          rw [List.length_drop]
          omega
        · simp [hfol]

/-- From an invariant state, `flush` never panics and preserves the
invariant. -/
theorem flush_ok {m : CharSubMachine} (hI : Inv m) :
    ∃ out m', m.flush = some (out, m') ∧ Inv m' := by
  obtain ⟨t, u⟩ := m
  obtain ⟨hg, hu⟩ := hI
  replace hg : GoodChildren t := hg
  cases u with
  | none => exact ⟨[], ⟨t, none⟩, rfl, hg, by simp⟩
  | some w =>
    obtain ⟨hne, hfol⟩ := hu w rfl
    obtain ⟨⟨p1, p2⟩, hfs⟩ := Option.isSome_iff_exists.mp (flushSub_isSome hfol)
    refine ⟨p1 ++ p2.getD [], ⟨t, none⟩, ?_, hg, by simp⟩
    simp [CharSubMachine.flush, hfs]

theorem run_ok {m : CharSubMachine} (hI : Inv m) (calls : List Call) :
    (run m calls).isSome := by
  induction calls generalizing m with
  | nil => simp [run]
  | cons c rest ih =>
    cases c with
    | add i o =>
      simp only [run]
      exact ih (add_ok hI i o)
    | proc s =>
      obtain ⟨out, m', hp, hI'⟩ := process_ok hI s
      simp only [run, hp]
      have hr := ih hI'
      cases hrun : run m' rest with
      | none => rw [hrun] at hr; simp at hr
      | some r =>
        obtain ⟨outs, mf⟩ := r
        simp
    | flush =>
      obtain ⟨out, m', hp, hI'⟩ := flush_ok hI
      simp only [run, hp]
      have hr := ih hI'
      cases hrun : run m' rest with
      | none => rw [hrun] at hr; simp at hr
      | some r =>
        obtain ⟨outs, mf⟩ := r
        simp

/-! ## Literal copy of text that never enters the trie -/

/-- If no character of the remaining input has a child at the root, the scan
loop stays at the root and only copies characters. -/
theorem processLoop_no_match {t : SubstitutionTrie} (input : List Char) :
    ∀ (rest : List Char) (loc start : Nat) (built : Option (List Char)),
      (∀ c ∈ rest, lookupChild t.children c = none) →
      processLoop t input rest loc t built false start
        = some (t, built.map (fun b => b ++ rest), false, start) := by
  intro rest
  induction rest with
  | nil =>
    intro loc start built _
    cases built <;> simp [processLoop]
  | cons c rest' ih =>
    intro loc start built h
    have hc : lookupChild t.children c = none := h c (List.mem_cons_self _ _)
    simp only [processLoop, deadEndStep, Bool.false_and, Bool.false_eq_true,
      if_false, hc]
    rw [ih (loc + 1) start (built.map (fun b => b ++ [c]))
      (fun d hd => h d (List.mem_cons_of_mem _ hd))]
    cases built <;> simp

/-- On a machine with no buffered leftover, input none of whose characters
starts a rule is returned unchanged and leaves the machine unchanged. -/
theorem process_no_match {t : SubstitutionTrie} {s : List Char}
    (h : ∀ c ∈ s, lookupChild t.children c = none) :
    CharSubMachine.process ⟨t, none⟩ s = some (s, ⟨t, none⟩) := by
  simp only [CharSubMachine.process]
  rw [processLoop_no_match s s 0 0 none h]
  simp

theorem lookupChild_add_of_head_ne {t : SubstitutionTrie} {c : Char}
    (cs out : List Char) (h : cs.head? ≠ some c) :
    lookupChild (t.add cs out).children c = lookupChild t.children c := by
  cases cs with
  | nil => rfl
  | cons d ds =>
    obtain ⟨o, ch⟩ := t
    have hdc : d ≠ c := by
      intro hh
      exact h (by simp [hh])
    simp only [SubstitutionTrie.add, SubstitutionTrie.children]
    exact lookupChild_updateChild_ne _ _ hdc

theorem buildFold_lookup_none {c : Char} :
    ∀ (rules : List (List Char × List Char)) (acc : SubstitutionTrie),
      (∀ r ∈ rules, r.1.head? ≠ some c) →
      lookupChild acc.children c = none →
      lookupChild (rules.foldl (fun t r => t.add r.1 r.2) acc).children c = none := by
  intro rules
  induction rules with
  | nil =>
    intro acc _ hacc
    exact hacc
  | cons r rest ih =>
    intro acc h hacc
    simp only [List.foldl_cons]
    refine ih _ (fun r' hr' => h r' (List.mem_cons_of_mem _ hr')) ?_
    rw [lookupChild_add_of_head_ne r.1 r.2 (h r (List.mem_cons_self _ _))]
    exact hacc

theorem foldl_add_output :
    ∀ (rules : List (List Char × List Char)) (acc : CharSubMachine),
      (∀ r ∈ rules, r.1 ≠ []) →
      (rules.foldl (fun m r => m.add_substitution r.1 r.2) acc).trie.output
        = acc.trie.output := by
  intro rules
  induction rules with
  | nil =>
    intro acc _
    rfl
  | cons r rest ih =>
    intro acc h
    simp only [List.foldl_cons]
    rw [ih _ (fun r' hr' => h r' (List.mem_cons_of_mem _ hr'))]
    have hne := h r (List.mem_cons_self _ _)
    cases hr1 : r.1 with
    | nil => exact absurd hr1 hne
    | cons c cs =>
      obtain ⟨⟨tout, tch⟩, au⟩ := acc
      simp [CharSubMachine.add_substitution, hr1, SubstitutionTrie.add,
        SubstitutionTrie.output]

/-! ## The claims about the substitution engine -/

/-- C1: with exactly the rules "A"→"a" and "ABC"→"b" registered,
`process("AB")` returns `""`; an immediate `flush()` returns `"aB"`; if
instead `process("C")` follows `process("AB")`, it returns `"b"` and a
subsequent `flush()` returns `""`. -/
theorem c1_cross_call_buffering :
    (run CharSubMachine.new
      [Call.add ['A'] ['a'], Call.add ['A', 'B', 'C'] ['b'],
       Call.proc ['A', 'B'], Call.flush]).map Prod.fst
      = some [[], ['a', 'B']]
  ∧ (run CharSubMachine.new
      [Call.add ['A'] ['a'], Call.add ['A', 'B', 'C'] ['b'],
       Call.proc ['A', 'B'], Call.proc ['C'], Call.flush]).map Prod.fst
      = some [[], ['b'], []] :=
  ⟨by decide, by decide⟩

/-- C2: every finite sequence of `add_substitution`, `process` and `flush`
calls on a fresh engine succeeds — no internal `unwrap`, slicing or child
lookup ever hits a missing value (all of them are modelled as `none` results,
and the run is proved to be `some`). -/
theorem c2_engine_never_panics (calls : List Call) :
    (run CharSubMachine.new calls).isSome :=
  run_ok inv_new calls

/-- C4: with rules "'"→"’" and "''"→"”", `process("it's")` returns `"it’s"`
and `process("when''")` returns `"when”"` (longest match preferred at end of
input). -/
theorem c4_longest_match_preference :
    (run CharSubMachine.new
      [Call.add ['\''] ['’'], Call.add ['\'', '\''] ['”'],
       Call.proc ['i', 't', '\'', 's']]).map Prod.fst
      = some [['i', 't', '’', 's']]
  ∧ (run CharSubMachine.new
      [Call.add ['\''] ['’'], Call.add ['\'', '\''] ['”'],
       Call.proc ['w', 'h', 'e', 'n', '\'', '\'']]).map Prod.fst
      = some [['w', 'h', 'e', 'n', '”']] :=
  ⟨by decide, by decide⟩

/-- C5: with rules "ABC"→"$$" and "DEF"→"!!", `process("ABDEF")` returns
`"AB!!"` — the dead-ended candidate "AB" (no prefix of which completes a
rule) is emitted literally and matching resumes from the root. -/
theorem c5_dead_end_literal_fallback :
    (run CharSubMachine.new
      [Call.add ['A', 'B', 'C'] ['$', '$'], Call.add ['D', 'E', 'F'] ['!', '!'],
       Call.proc ['A', 'B', 'D', 'E', 'F']]).map Prod.fst
      = some [['A', 'B', '!', '!']] := by
  decide

/-- C6: for any registered rule set and any string `p ++ q` none of whose
characters begins a rule input, processing in two chunks then flushing emits
`p`, `q` and `""` (concatenating to `p ++ q`), and processing in one call
then flushing emits `p ++ q` and `""` — the same text either way. -/
theorem c6_identity_any_chunking (rules : List (List Char × List Char))
    (p q : List Char)
    (h : ∀ c ∈ p ++ q, ∀ r ∈ rules, r.1.head? ≠ some c) :
    run ⟨buildTrie rules, none⟩ [Call.proc p, Call.proc q, Call.flush]
      = some ([p, q, []], ⟨buildTrie rules, none⟩)
  ∧ run ⟨buildTrie rules, none⟩ [Call.proc (p ++ q), Call.flush]
      = some ([p ++ q, []], ⟨buildTrie rules, none⟩) := by
  have hlook : ∀ c ∈ p ++ q, lookupChild (buildTrie rules).children c = none :=
    fun c hc => buildFold_lookup_none rules SubstitutionTrie.new (h c hc) rfl
  have h1 := process_no_match (t := buildTrie rules) (s := p)
    (fun c hc => hlook c (List.mem_append_left _ hc))
  have h2 := process_no_match (t := buildTrie rules) (s := q)
    (fun c hc => hlook c (List.mem_append_right _ hc))
  have h12 := process_no_match (t := buildTrie rules) (s := p ++ q) hlook
  constructor
  · simp [run, h1, h2, CharSubMachine.flush]
  · simp [run, h12, CharSubMachine.flush]

theorem c6_witness :
    run ⟨buildTrie [(['A'], ['a'])], none⟩
      [Call.proc ['x'], Call.proc ['y', 'z'], Call.flush]
      = some ([['x'], ['y', 'z'], []], ⟨buildTrie [(['A'], ['a'])], none⟩)
  ∧ run ⟨buildTrie [(['A'], ['a'])], none⟩
      [Call.proc (['x'] ++ ['y', 'z']), Call.flush]
      = some ([['x'] ++ ['y', 'z'], []], ⟨buildTrie [(['A'], ['a'])], none⟩) :=
  c6_identity_any_chunking [(['A'], ['a'])] ['x'] ['y', 'z'] (by decide)

/-- C7: an engine with no rules registered returns every input unchanged and
never buffers, and its `flush` always returns the empty string. -/
theorem c7_no_rules_noop (s : List Char) :
    CharSubMachine.new.process s = some (s, CharSubMachine.new) ∧
    CharSubMachine.new.flush = some ([], CharSubMachine.new) :=
  ⟨process_no_match (fun _ _ => rfl), rfl⟩

/-- C8: `flush` drains and clears the pending buffer: whenever a `flush`
returns, the resulting state has no pending buffer, so a second (and any
later) `flush` with no intervening `process` returns the empty string; and a
`flush` on a state with nothing buffered returns the empty string and leaves
the state unchanged. -/
theorem c8_flush_drains_and_idempotent (m : CharSubMachine) :
    (m.unprocessed = none → m.flush = some ([], m)) ∧
    (∀ out m', m.flush = some (out, m') →
      m'.unprocessed = none ∧ m'.flush = some ([], m')) := by
  obtain ⟨t, u⟩ := m
  constructor
  · intro hu
    cases hu
    rfl
  · intro out m' h
    cases u with
    | none =>
      simp only [CharSubMachine.flush] at h
      cases h
      exact ⟨rfl, rfl⟩
    | some w =>
      simp only [CharSubMachine.flush] at h
      cases hfs : flushSub t w with
      | none =>
        rw [hfs] at h
        cases h
      | some r =>
        obtain ⟨p1, p2⟩ := r
        rw [hfs] at h
        cases h
        exact ⟨rfl, rfl⟩

theorem c8_witness :
    CharSubMachine.flush ⟨SubstitutionTrie.new.add ['A'] ['a'], some ['A']⟩
      = some (['a'], ⟨SubstitutionTrie.new.add ['A'] ['a'], none⟩)
    ∧ CharSubMachine.flush ⟨SubstitutionTrie.new.add ['A'] ['a'], none⟩
      = some ([], ⟨SubstitutionTrie.new.add ['A'] ['a'], none⟩) := by
  have h1 : CharSubMachine.flush ⟨SubstitutionTrie.new.add ['A'] ['a'], some ['A']⟩
      = some (['a'], ⟨SubstitutionTrie.new.add ['A'] ['a'], none⟩) := rfl
  exact ⟨h1, ((c8_flush_drains_and_idempotent _).2 ['a'] _ h1).2⟩

/-- C3 (counterexample): after `add_substitution("", "x")` the root node's
output is `some "x"`, not absent — the code writes the output into the root
when the input sequence is empty. -/
theorem c3_counterexample :
    ¬ (CharSubMachine.new.add_substitution [] ['x']).trie.output = none := by
  decide

/-- C3 (amended): for every sequence of `add_substitution` calls in which
every input sequence is nonempty, the trie root node's output remains
absent. -/
theorem c3_root_output_stays_none (rules : List (List Char × List Char))
    (h : ∀ r ∈ rules, r.1 ≠ []) :
    (rules.foldl (fun m r => m.add_substitution r.1 r.2)
      CharSubMachine.new).trie.output = none :=
  foldl_add_output rules CharSubMachine.new h

theorem c3_witness :
    (([(['A'], ['a'])] : List (List Char × List Char)).foldl
      (fun m r => m.add_substitution r.1 r.2) CharSubMachine.new).trie.output
      = none :=
  c3_root_output_stays_none [(['A'], ['a'])] (by decide)

/-! ## Lemmas about the escape decoder -/

/-- Errors raised by the scanner carry the raw input slice before the current
character and the current character itself. -/
theorem coreRun_error_payload {input : List Char} :
    ∀ (cs : List Char) (idx : Nat) (st : UState) (seen : Bool)
      (acc : List Char) (uv : Nat) (e : UnescapeError),
      cs = input.drop idx →
      coreRun input cs idx st seen acc uv = .error e →
      ∃ pre c rest, input = pre ++ c :: rest ∧
        (e = .BadEscape pre c ∨ e = .MissingOpenBrace pre c ∨
         e = .NonHexDigit pre c ∨ e = .HexValueTooLarge pre c ∨
         e = .InvalidUnicodeValue pre c) := by
  intro cs
  induction cs with
  | nil =>
    intro idx st seen acc uv e _ herr
    cases herr
  | cons c cs' ih =>
    intro idx st seen acc uv e hdrop herr
    have hsplit : input = input.take idx ++ c :: cs' := by
      conv_lhs => rw [← List.take_append_drop idx input]
      rw [← hdrop]
    have hdrop' : cs' = input.drop (idx + 1) := by
      have h1 : input.drop (idx + 1) = (input.drop idx).drop 1 := by
        rw [List.drop_drop, Nat.add_comm]
      rw [h1, ← hdrop]
      simp
    cases st with
    | Normal =>
      simp only [coreRun] at herr
      split at herr
      · exact ih _ _ _ _ _ _ hdrop' herr
      · exact ih _ _ _ _ _ _ hdrop' herr
    | Escape =>
      simp only [coreRun] at herr
      split at herr
      · exact ih _ _ _ _ _ _ hdrop' herr
      · split at herr
        · exact ih _ _ _ _ _ _ hdrop' herr
        · split at herr
          · exact ih _ _ _ _ _ _ hdrop' herr
          · split at herr
            · exact ih _ _ _ _ _ _ hdrop' herr
            · split at herr
              · exact ih _ _ _ _ _ _ hdrop' herr
              · split at herr
                · exact ih _ _ _ _ _ _ hdrop' herr
                · split at herr
                  · exact ih _ _ _ _ _ _ hdrop' herr
                  · cases herr
                    exact ⟨input.take idx, c, cs', hsplit, Or.inl rfl⟩
    | StartUnicode =>
      simp only [coreRun] at herr
      split at herr
      · exact ih _ _ _ _ _ _ hdrop' herr
      · cases herr
        exact ⟨input.take idx, c, cs', hsplit, Or.inr (Or.inl rfl)⟩
    | InUnicode =>
      simp only [coreRun] at herr
      split at herr
      · rename_i hc
        split at herr
        · cases herr
          subst hc
          exact ⟨input.take idx, '}', cs', hsplit,
            Or.inr (Or.inr (Or.inr (Or.inr rfl)))⟩
        · exact ih _ _ _ _ _ _ hdrop' herr
      · split at herr
        · cases herr
          exact ⟨input.take idx, c, cs', hsplit,
            Or.inr (Or.inr (Or.inl rfl))⟩
        · split at herr
          · cases herr
            exact ⟨input.take idx, c, cs', hsplit,
              Or.inr (Or.inr (Or.inr (Or.inl rfl)))⟩
          · exact ih _ _ _ _ _ _ hdrop' herr

/-- Splitting a scan over an appended input: process the first part, then the
second from the reached state. -/
theorem coreRun_append (input : List Char) :
    ∀ (xs ys : List Char) (idx : Nat) (st : UState) (seen : Bool)
      (acc : List Char) (uv : Nat),
      coreRun input (xs ++ ys) idx st seen acc uv
        = match coreRun input xs idx st seen acc uv with
          | .error e => .error e
          | .ok (st', s', a', u') =>
            coreRun input ys (idx + xs.length) st' s' a' u' := by
  intro xs
  induction xs with
  | nil =>
    intro ys idx st seen acc uv
    simp [coreRun]
  | cons c xs ih =>
    intro ys idx st seen acc uv
    have harith : idx + 1 + xs.length = idx + (xs.length + 1) := by omega
    cases st with
    | Normal =>
      simp only [List.cons_append, coreRun, List.append_eq]
      split
      · rw [ih, List.length_cons, harith]
      · rw [ih, List.length_cons, harith]
    | Escape =>
      simp only [List.cons_append, coreRun, List.append_eq]
      split
      · rw [ih, List.length_cons, harith]
      · split
        · rw [ih, List.length_cons, harith]
        · split
          · rw [ih, List.length_cons, harith]
          · split
            · rw [ih, List.length_cons, harith]
            · split
              · rw [ih, List.length_cons, harith]
              · split
                · rw [ih, List.length_cons, harith]
                · split
                  · rw [ih, List.length_cons, harith]
                  · rfl
    | StartUnicode =>
      simp only [List.cons_append, coreRun, List.append_eq]
      split
      · rw [ih, List.length_cons, harith]
      · rfl
    | InUnicode =>
      simp only [List.cons_append, coreRun, List.append_eq]
      split
      · split
        · rfl
        · rw [ih, List.length_cons, harith]
      · split
        · rfl
        · split
          · rfl
          · rw [ih, List.length_cons, harith]

/-- While the scan stays inside the first part of an appended input, the
second part is invisible (all input slices taken stop before it). -/
theorem coreRun_take_agnostic {p t : List Char} :
    ∀ (cs : List Char) (idx : Nat) (st : UState) (seen : Bool)
      (acc : List Char) (uv : Nat),
      idx + cs.length ≤ p.length →
      coreRun (p ++ t) cs idx st seen acc uv = coreRun p cs idx st seen acc uv := by
  intro cs
  induction cs with
  | nil =>
    intro idx st seen acc uv _
    rfl
  | cons c cs' ih =>
    intro idx st seen acc uv hle
    have hidx : idx ≤ p.length := by
      simp only [List.length_cons] at hle
      omega
    have htake : (p ++ t).take idx = p.take idx :=
      List.take_append_of_le_length hidx
    have hle' : idx + 1 + cs'.length ≤ p.length := by
      simp only [List.length_cons] at hle
      omega
    cases st with
    | Normal =>
      simp only [coreRun, htake]
      split
      · rw [ih _ _ _ _ _ hle']
      · rw [ih _ _ _ _ _ hle']
    | Escape =>
      simp only [coreRun, htake]
      split
      · rw [ih _ _ _ _ _ hle']
      · split
        · rw [ih _ _ _ _ _ hle']
        · split
          · rw [ih _ _ _ _ _ hle']
          · split
            · rw [ih _ _ _ _ _ hle']
            · split
              · rw [ih _ _ _ _ _ hle']
              · split
                · rw [ih _ _ _ _ _ hle']
                · split
                  · rw [ih _ _ _ _ _ hle']
                  · rfl
    | StartUnicode =>
      simp only [coreRun, htake]
      split
      · rw [ih _ _ _ _ _ hle']
      · rfl
    | InUnicode =>
      simp only [coreRun, htake]
      split
      · split
        · rfl
        · rw [ih _ _ _ _ _ hle']
      · split
        · rfl
        · split
          · rfl
          · rw [ih _ _ _ _ _ hle']

/-- `escape_sequence_seen` is never unset. -/
theorem coreRun_seen_mono (input : List Char) :
    ∀ (cs : List Char) (idx : Nat) (st : UState) (acc : List Char) (uv : Nat)
      (st' : UState) (s' : Bool) (a' : List Char) (u' : Nat),
      coreRun input cs idx st true acc uv = .ok (st', s', a', u') →
      s' = true := by
  intro cs
  induction cs with
  | nil =>
    intro idx st acc uv st' s' a' u' h
    cases h
    rfl
  | cons c cs' ih =>
    intro idx st acc uv st' s' a' u' h
    cases st with
    | Normal =>
      simp only [coreRun] at h
      split at h
      · exact ih _ _ _ _ _ _ _ _ h
      · exact ih _ _ _ _ _ _ _ _ h
    | Escape =>
      simp only [coreRun] at h
      split at h
      · exact ih _ _ _ _ _ _ _ _ h
      · split at h
        · exact ih _ _ _ _ _ _ _ _ h
        · split at h
          · exact ih _ _ _ _ _ _ _ _ h
          · split at h
            · exact ih _ _ _ _ _ _ _ _ h
            · split at h
              · exact ih _ _ _ _ _ _ _ _ h
              · split at h
                · exact ih _ _ _ _ _ _ _ _ h
                · split at h
                  · exact ih _ _ _ _ _ _ _ _ h
                  · cases h
    | StartUnicode =>
      simp only [coreRun] at h
      split at h
      · exact ih _ _ _ _ _ _ _ _ h
      · cases h
    | InUnicode =>
      simp only [coreRun] at h
      split at h
      · split at h
        · cases h
        · exact ih _ _ _ _ _ _ _ _ h
      · split at h
        · cases h
        · split at h
          · cases h
          · exact ih _ _ _ _ _ _ _ _ h

/-- A scan that starts in `Normal` with no escape seen and an empty output
and ends with no escape seen must still be in `Normal` with an empty
output. -/
theorem coreRun_normal_unseen (input : List Char) :
    ∀ (cs : List Char) (idx : Nat) (uv : Nat) (st' : UState) (s' : Bool)
      (a' : List Char) (u' : Nat),
      coreRun input cs idx .Normal false [] uv = .ok (st', s', a', u') →
      s' = false → a' = [] ∧ st' = .Normal := by
  intro cs
  induction cs with
  | nil =>
    intro idx uv st' s' a' u' h _
    cases h
    exact ⟨rfl, rfl⟩
  | cons c cs' ih =>
    intro idx uv st' s' a' u' h hs
    simp only [coreRun] at h
    split at h
    · have := coreRun_seen_mono input _ _ _ _ _ _ _ _ _ h
      rw [this] at hs
      cases hs
    · simp only [Bool.false_eq_true, if_false] at h
      exact ih _ _ _ _ _ _ h hs

theorem hexVal_le {w : Nat} :
    ∀ (ds : List Char) (v : Nat), hexVal v ds = some w → v ≤ w := by
  intro ds
  induction ds with
  | nil =>
    intro v h
    cases h
    exact Nat.le_refl _
  | cons c ds' ih =>
    intro v h
    simp only [hexVal] at h
    cases hd : hexDigit? c with
    | none => rw [hd] at h; cases h
    | some d =>
      rw [hd] at h
      have := ih _ h
      omega

/-- The `InUnicode` digit loop accumulates a bounded hex value without
raising an error or touching the rest of the state. -/
theorem coreRun_digits (input : List Char) :
    ∀ (ds : List Char) (idx : Nat) (seen : Bool) (acc : List Char) (v w : Nat),
      hexVal v ds = some w → w ≤ 0x10FFFF →
      coreRun input ds idx .InUnicode seen acc v
        = .ok (.InUnicode, seen, acc, w) := by
  intro ds
  induction ds with
  | nil =>
    intro idx seen acc v w h _
    cases h
    rfl
  | cons c ds' ih =>
    intro idx seen acc v w h hw
    simp only [hexVal] at h
    cases hd : hexDigit? c with
    | none => rw [hd] at h; cases h
    | some d =>
      rw [hd] at h
      have hc : ¬ c = '}' := by
        intro hcc
        rw [hcc] at hd
        have : hexDigit? '}' = none := by decide
        rw [this] at hd
        cases hd
      have hbound : v * 16 + d ≤ w := hexVal_le ds' _ h
      simp only [coreRun, if_neg hc, hd]
      rw [if_neg (by omega)]
      exact ih _ _ _ _ _ h hw

/-! ## The claims about the escape decoder -/

/-- C9 (counterexample): on input `"\0"` the error is
`BadEscape` with payload `"\"` — the raw input slice before the offending
character, backslash included — while the successfully decoded output up to
the failure point is empty (as decoding the prefix `"\"` shows). The payload
is therefore not the decoded output produced up to the failure point. -/
theorem c9_counterexample :
    unescapeL ['\\', '0'] = .error (.BadEscape ['\\'] '0')
  ∧ unescapeL ['\\'] = .ok []
  ∧ (['\\'] : List Char) ≠ [] :=
  ⟨rfl, rfl, by decide⟩

/-- C9 (amended): every error returned by `unescape` is one of the five
documented kinds, and its payload is the raw (undecoded) input prefix
preceding the offending character, together with the offending character
itself. -/
theorem c9_error_kinds_and_payload (input : List Char) (e : UnescapeError)
    (h : unescapeL input = .error e) :
    ∃ pre c rest, input = pre ++ c :: rest ∧
      (e = .BadEscape pre c ∨ e = .MissingOpenBrace pre c ∨
       e = .NonHexDigit pre c ∨ e = .HexValueTooLarge pre c ∨
       e = .InvalidUnicodeValue pre c) := by
  simp only [unescapeL] at h
  cases hcr : coreRun input input 0 .Normal false [] 0 with
  | error e2 =>
    rw [hcr] at h
    cases h
    exact coreRun_error_payload input 0 .Normal false [] 0 _
      (List.drop_zero _).symm hcr
  | ok r =>
    obtain ⟨st, seen, acc, uv⟩ := r
    rw [hcr] at h
    cases h

theorem c9_witness :
    ∃ pre c rest, (['\\', '0'] : List Char) = pre ++ c :: rest ∧
      (UnescapeError.BadEscape ['\\'] '0' = .BadEscape pre c ∨
       UnescapeError.BadEscape ['\\'] '0' = .MissingOpenBrace pre c ∨
       UnescapeError.BadEscape ['\\'] '0' = .NonHexDigit pre c ∨
       UnescapeError.BadEscape ['\\'] '0' = .HexValueTooLarge pre c ∨
       UnescapeError.BadEscape ['\\'] '0' = .InvalidUnicodeValue pre c) :=
  c9_error_kinds_and_payload ['\\', '0'] (.BadEscape ['\\'] '0') rfl

/-- C10: an input that ends in the middle of an escape sequence — a prefix
that scans to the `Normal` state followed by a lone backslash, a trailing
`\u`, a trailing `\u{`, or an unterminated `\u{` with hex digits whose value
does not exceed 0x10FFFF — decodes with `Ok`, to exactly the decoding of the
prefix: the incomplete trailing escape is silently omitted. -/
theorem c10_incomplete_trailing_escape_ok (p s : List Char) (seen : Bool)
    (acc : List Char) (uv : Nat)
    (hp : coreRun p p 0 .Normal false [] 0 = .ok (.Normal, seen, acc, uv))
    (hs : IncompleteEscape s) :
    ∃ r, unescapeL p = .ok r ∧ unescapeL (p ++ s) = .ok r := by
  have hP : unescapeL p = .ok (if seen then acc else p) := by
    simp [unescapeL, hp]
  have hacc : seen = false → acc = [] := fun h =>
    (coreRun_normal_unseen p p 0 0 _ _ _ _ hp h).1
  have hsplit : coreRun (p ++ s) (p ++ s) 0 .Normal false [] 0
      = coreRun (p ++ s) s p.length .Normal seen acc uv := by
    rw [coreRun_append (p ++ s) p s 0 .Normal false [] 0,
      coreRun_take_agnostic p 0 .Normal false [] 0 (by simp), hp]
    simp only [Nat.zero_add]
  have hacc1 :
      (if seen = false ∧ 0 < p.length then acc ++ p else acc)
      = (if seen then acc else p) := by
    cases seen with
    | true => simp
    | false =>
      rw [hacc rfl]
      cases p with
      | nil => simp
      | cons a as => simp
  refine ⟨if seen then acc else p, hP, ?_⟩
  rcases hs with h | h | ⟨ds, w, h, hds, hw⟩ <;> subst h
  · have hstep : coreRun (p ++ ['\\']) ['\\'] p.length .Normal seen acc uv
        = .ok (.Escape, true,
            if seen = false ∧ 0 < p.length then acc ++ (p ++ ['\\']).take p.length
            else acc, uv) := rfl
    rw [List.take_left] at hstep
    simp [unescapeL, hsplit, hstep, hacc1]
  · have hstep : coreRun (p ++ ['\\', 'u']) ['\\', 'u'] p.length .Normal seen acc uv
        = .ok (.StartUnicode, true,
            if seen = false ∧ 0 < p.length then acc ++ (p ++ ['\\', 'u']).take p.length
            else acc, uv) := rfl
    rw [List.take_left] at hstep
    simp [unescapeL, hsplit, hstep, hacc1]
  · have hstep : coreRun (p ++ ('\\' :: 'u' :: '{' :: ds))
        ('\\' :: 'u' :: '{' :: ds) p.length .Normal seen acc uv
        = coreRun (p ++ ('\\' :: 'u' :: '{' :: ds)) ds (p.length + 3) .InUnicode true
            (if seen = false ∧ 0 < p.length then
              acc ++ (p ++ ('\\' :: 'u' :: '{' :: ds)).take p.length
            else acc) 0 := rfl
    rw [List.take_left, hacc1] at hstep
    have hdig := coreRun_digits (p ++ ('\\' :: 'u' :: '{' :: ds)) ds
      (p.length + 3) true (if seen then acc else p) 0 w hds hw
    simp [unescapeL, hsplit, hstep, hdig]

theorem c10_witness :
    ∃ r, unescapeL ['a'] = .ok r ∧ unescapeL (['a'] ++ ['\\']) = .ok r :=
  c10_incomplete_trailing_escape_ok ['a'] ['\\'] false [] 0 rfl (Or.inl rfl)

theorem c2_witness :
    (run CharSubMachine.new
      [Call.add ['A'] ['a'], Call.proc ['A', 'B'], Call.flush]).isSome :=
  c2_engine_never_panics [Call.add ['A'] ['a'], Call.proc ['A', 'B'], Call.flush]

theorem c7_witness :
    CharSubMachine.new.process ['x', 'y'] = some (['x', 'y'], CharSubMachine.new) ∧
    CharSubMachine.new.flush = some ([], CharSubMachine.new) :=
  c7_no_rules_noop ['x', 'y']

/-! ## Regression checks mirroring the test suite in the source files -/

theorem model_matches_source_tests_end_of_chunk :
    (run CharSubMachine.new
      [Call.add ['A', 'B', 'C'] ['$', '$'], Call.add ['D', 'E', 'F'] ['!', '!'],
       Call.proc ['A', 'B', 'C', 'D', 'E'], Call.flush, Call.flush]).map Prod.fst
      = some [['$', '$'], ['D', 'E'], []] := by
  decide

theorem model_matches_source_tests_overlapping_rules :
    (run CharSubMachine.new
      [Call.add ['1', '2'] ['@'], Call.add ['1', '2', '3'] ['#'],
       Call.proc ['1', ' ', '1', '2', ' ', '1', '2', '3']]).map Prod.fst
      = some [['1', ' ', '@', ' ', '#']] := by
  decide

theorem model_matches_source_tests_unescape :
    unescapeL ['o', 'r', 'd'] = .ok ['o', 'r', 'd']
  ∧ unescapeL ['\\', 't'] = .ok ['\t']
  ∧ unescapeL ['a', '\\', 'u', '{', 'a', '0', '}', 'b']
      = .ok ['a', Char.ofNat 0xa0, 'b']
  ∧ unescapeL ['f', ' ', '\\', '0'] = .error (.BadEscape ['f', ' ', '\\'] '0')
  ∧ unescapeL ['\\', 'u', 'n'] = .error (.MissingOpenBrace ['\\', 'u'] 'n')
  ∧ unescapeL ['\\', 'u', '{', 'n', '}'] = .error (.NonHexDigit ['\\', 'u', '{'] 'n')
  ∧ unescapeL ['\\', 'u', '{', '1', '2', '0', '0', '0', '0', '}']
      = .error (.HexValueTooLarge ['\\', 'u', '{', '1', '2', '0', '0', '0'] '0')
  ∧ unescapeL ['\\', 'u', '{', 'd', '8', '0', '0', '}']
      = .error (.InvalidUnicodeValue ['\\', 'u', '{', 'd', '8', '0', '0'] '}') :=
  ⟨rfl, rfl, rfl, rfl, rfl, rfl, rfl, rfl⟩

end FinlCharsub
